import Mathlib

/-!
Verification of the rope core (`rope` package): a persistent binary-tree
representation of a string with concatenation, slicing, rebalancing and a
streaming reader.

The embedding below translates the Go source files
`rope/reader.go`, `rope/concat.go`, `rope/leaf.go`, `rope/rebalance.go`
(together with the node/`concat`/`conc`/`concMany` definitions of the same
package) into Lean.  Conventions:

* `node` is the sum of the two variants `leaf` (a contiguous string) and
  `concat` (binary join with cached `split = length(left)`, a `uint32`
  cache of the right length `rLen`, and a cached `treedepth`).
  `Node.leaf ""` plays the role of the canonical `emptyNode`; in Go,
  `n == emptyNode` is interface equality, which for the string-typed
  `leaf` variant is value equality, so it is modelled as `n = Node.leaf ""`.
* Go `int64` values (lengths, indices) are modelled as `Int`; the `uint32`
  length cache is a `Nat` produced by the explicit `% 2^32` conversion that
  the Go cast performs.  `treedepth` is modelled as `Nat` (the source keeps
  it in an `int` in `concat.go`).
* Functions that can hit a Go runtime panic (out-of-range slice index,
  method call on a nil interface, the rebalancer's `panic(...)`) return
  `Option _`, with `none` for the panic.  Loops whose termination is not
  structural take an explicit fuel argument that is chosen (and proved or
  checked) large enough; running out of fuel also yields the `none`/panic
  result and is noted where it matters.
-/

/-- The two node variants of the rope: `leaf` holds the string run directly;
`concat l r split rLen treedepth` is the join of two subtrees with cached
`split` (length of `l`), `rLen` (`uint32` cache of `r`'s length, `0` when out
of range) and cached depth. -/
inductive Node : Type where
  | leaf (s : String)
  | concat (left right : Node) (split : Int) (rLen : Nat) (treedepth : Nat)
deriving DecidableEq

/-- `node.depth()`: `0` for a leaf, the cached `treedepth` for a concat. -/
def depthN : Node → Nat
  | Node.leaf _ => 0
  | Node.concat _ _ _ _ d => d

/-- `node.length()`: a leaf reports its run length; a concat returns
`c.split + c.rLength()` where `rLength` uses the `uint32` cache when it is
non-zero and otherwise re-derives the right subtree's length. -/
def nlength : Node → Int
  | Node.leaf s => (s.length : Int)
  | Node.concat _ r split rLen _ =>
      -- concat.length() = c.split + c.rLength(), and rLength() returns the
      -- uint32 cache when non-zero, else recomputes c.right.length()
      split + (if rLen > 0 then (rLen : Int) else nlength r)

/-- The logical content of a node: `write`/`WriteTo` emits the left subtree,
then the right subtree; a leaf emits its run.  This left-to-right order is
the definition of the rope's materialized string. -/
def matN : Node → String
  | Node.leaf s => s
  | Node.concat l r _ _ _ => matN l ++ matN r

example : matN (Node.leaf "ab") = "ab" := rfl

/-- `rLength()` of a concat node, as its own function (`concat.rLength` in the
source): the `uint32` cache if non-zero, otherwise the right child's length.
On a leaf (which has no such method) we return `0`; it is never used there. -/
def rLengthN : Node → Int
  | Node.leaf _ => 0
  | Node.concat _ r _ rLen _ => if rLen > 0 then (rLen : Int) else nlength r

/-- Projection of the stored `rLen` field (`none` on a leaf). -/
def rLenOf : Node → Option Nat
  | Node.leaf _ => none
  | Node.concat _ _ _ rLen _ => some rLen

/-- Projection of the stored `split` field (`none` on a leaf). -/
def splitOf : Node → Option Int
  | Node.leaf _ => none
  | Node.concat _ _ split _ _ => some split

/-- `conc(lhs, rhs, lhsLength, rhsLength)`: returns the other operand when one
side is the canonical empty node; otherwise builds a `concat` whose depth is
`1 + max(depth lhs, depth rhs)`.  Non-positive length hints are replaced by
the operand's computed length; a right length above `^uint32(0) = 2^32 - 1`
is stored as cache value `0`; the final Go cast `rLenT(rhsLength)` is the
`% 2^32` conversion made explicit. -/
def conc (lhs rhs : Node) (lhsLength rhsLength : Int) : Node :=
  if lhs = Node.leaf "" then rhs
  else if rhs = Node.leaf "" then lhs
  else
    let depth := max (depthN lhs) (depthN rhs)
    let lhsLen2 := if lhsLength ≤ 0 then nlength lhs else lhsLength
    let rhsLen2 := if rhsLength ≤ 0 then nlength rhs else rhsLength
    let rhsLen3 := if rhsLen2 > (4294967295 : Int) then 0 else rhsLen2
    Node.concat lhs rhs lhsLen2 ((rhsLen3 % 4294967296).toNat) (depth + 1)

/-- `concMany(first, others...)`: balanced divide-and-conquer combination.
The operand list is split near its midpoint, each half is combined
recursively, and the halves are joined with `conc`.  `others[split]` is in
bounds because `split = len(others)/2 < len(others)` whenever `others` is
non-empty; it is modelled with `getD`. -/
def concMany (first : Node) : List Node → Node
  | [] => first
  | others@(_ :: _) =>
    let split := others.length / 2
    let lhs := concMany first (others.take split)
    let rhs := concMany (others.getD split (Node.leaf "")) (others.drop (split + 1))
    conc lhs rhs 0 0
termination_by others => others.length
decreasing_by
  all_goals subst_vars
  · simp [List.length_take]
    omega
  · simp [List.length_drop]
    omega

/-- `leaf.dropPrefix(start)` from `leaf.go`: empty node when `start` reaches
the end, the leaf itself for non-positive `start`, otherwise the sub-run
`l[start:]`. -/
def dropPrefixL (l : String) (start : Int) : Node :=
  if start ≥ (l.length : Int) then Node.leaf ""
  else if start ≤ 0 then Node.leaf l
  else Node.leaf (l.drop start.toNat)

/-- `leaf.dropPostfix(end)` from `leaf.go`: the leaf itself when `end` reaches
the length, empty node for non-positive `end`, otherwise `l[:end]`. -/
def dropPostfixL (l : String) (e : Int) : Node :=
  if e ≥ (l.length : Int) then Node.leaf l
  else if e ≤ 0 then Node.leaf ""
  else Node.leaf (l.take e.toNat)

/-- `node.dropPrefix(start)`: on a concat, recurse into the left child and
re-join with the untouched right child (length hints `split - start` and the
`rLen` cache), or discard the left child entirely when `start ≥ split`. -/
def dropPrefixN : Node → Int → Node
  | Node.leaf s, start => dropPrefixL s start
  | Node.concat l r split rLen d, start =>
    if start ≤ 0 then Node.concat l r split rLen d
    else if start < split then conc (dropPrefixN l start) r (split - start) (rLen : Int)
    else dropPrefixN r (start - split)

/-- `node.dropPostfix(end)`: empty for non-positive `end`; keep only a prefix
of the left child when `end ≤ split`; the whole node when `end` reaches
`split + rLength()`; otherwise re-join the untouched left child with the
truncated right child (length hints `split` and `end - split`). -/
def dropPostfixN : Node → Int → Node
  | Node.leaf s, e => dropPostfixL s e
  | Node.concat l r split rLen d, e =>
    if e ≤ 0 then Node.leaf ""
    else if e ≤ split then dropPostfixN l e
    else if e ≥ split + rLengthN (Node.concat l r split rLen d) then
      Node.concat l r split rLen d
    else conc l (dropPostfixN r (e - split)) split (e - split)

example : dropPrefixN (Node.leaf "abcdef") 3 = Node.leaf "def" := by decide
example : dropPostfixN (Node.leaf "abcdef") 3 = Node.leaf "abc" := by decide

/-- The `Rope` handle: wraps the root node, which may be absent (`nil`). -/
structure Rope : Type where
  node : Option Node
deriving DecidableEq

/-- `emptyRope`: the rope whose root is the canonical empty node. -/
def emptyRope : Rope := ⟨some (Node.leaf "")⟩

/-- `New(arg)`: the empty rope for an empty string, else a single leaf. -/
def newR (arg : String) : Rope :=
  if arg.length = 0 then emptyRope else ⟨some (Node.leaf arg)⟩

/-- `Rope.String()`/`Bytes()`: empty for a nil root, else the node content
written left-to-right. -/
def matR (r : Rope) : String :=
  match r.node with
  | none => ""
  | some n => matN n

/-- `Rope.Len()`: `0` for a nil root, else the root's cached length. -/
def lenR (r : Rope) : Int :=
  match r.node with
  | none => 0
  | some n => nlength n

/-- Depth of a rope's root (0 for a nil root). -/
def depthR (r : Rope) : Nat :=
  match r.node with
  | none => 0
  | some n => depthN n

/-- `Rope.Concat(rhs...)`: shift the receiver onto the first non-nil
argument, collect the non-nil argument nodes, and combine with `concMany`. -/
def concatR : Rope → List Rope → Rope
  | r, [] => r
  | ⟨none⟩, x :: xs => concatR x xs
  | ⟨some n⟩, rhs => ⟨some (concMany n (rhs.filterMap Rope.node))⟩

/-- `Rope.DropPrefix(start)`: identity when `start == 0` or the root is nil,
else wraps `node.dropPrefix(start)`. -/
def dropPrefixR (r : Rope) (start : Int) : Rope :=
  if start = 0 ∨ r.node = none then r
  else
    match r.node with
    | none => r
    | some n => ⟨some (dropPrefixN n start)⟩

/-- `Rope.DropPostfix(end)` as written in the source: identity on a nil root,
otherwise it wraps `r.node.dropPrefix(end)` — the source really calls
`dropPrefix` here, not `dropPostfix`, although its doc comment says the
result is analogous to `str[:end]`. -/
def dropPostfixR (r : Rope) (e : Int) : Rope :=
  match r.node with
  | none => r
  | some n => ⟨some (dropPrefixN n e)⟩

/-- `Rope.Slice(start, end)`: clamp a negative `start` to `0`, return
`emptyRope` when `start ≥ end`, else `DropPostfix(end).DropPrefix(start)`. -/
def sliceR (r : Rope) (start e : Int) : Rope :=
  let start2 := if start < 0 then 0 else start
  if start2 ≥ e then emptyRope
  else dropPrefixR (dropPostfixR r e) start2

/-- State of the streaming `Reader`: the stack of `concat` nodes whose right
subtrees are still pending (modelled with the top of the Go slice as the list
head), the current leaf string, and the position inside it. -/
structure ReaderS : Type where
  stack : List Node
  cur : String
  pos : Nat
deriving DecidableEq

/-- `Reader.pushSubtree(n)`: walk to the leftmost leaf, pushing every concat
node passed on the way; the leaf becomes the current leaf at position 0. -/
def pushSubtree : ReaderS → Node → ReaderS
  | st, Node.leaf s => { st with cur := s, pos := 0 }
  | st, Node.concat l r split rLen d =>
      pushSubtree { st with stack := Node.concat l r split rLen d :: st.stack } l

/-- `NewReader(rope)`: the zero-valued reader for a nil root (empty stack,
empty current leaf); otherwise push the leftmost path of the root. -/
def newReaderR (r : Rope) : ReaderS :=
  match r.node with
  | none => ⟨[], "", 0⟩
  | some n => pushSubtree ⟨[], "", 0⟩ n

/-- `Reader.nextNode()` as written in the source: shrink the stack by one —
on an empty stack this slice expression is a bounds error, modelled as
`none` — and, when the stack is still non-empty, push the subtree of the
node that is now on top (the source pushes `r.stack[len(r.stack)-1]`, the
new top itself, not a right subtree). -/
def nextNodeR (st : ReaderS) : Option ReaderS :=
  match st.stack with
  | [] => none
  | _ :: rest =>
    match rest with
    | [] => some { st with stack := [] }
    | top :: _ => some (pushSubtree { st with stack := rest } top)

/-- Result of one `Reader.Read` call: a runtime abort, `io.EOF`, or a chunk
of bytes together with the updated reader state. -/
inductive ReadRes : Type where
  | abortR
  | eofR
  | chunk (s : String) (st : ReaderS)
deriving DecidableEq

/-- `Reader.Read(p)` with `len(p) = k`: while the current leaf is exhausted,
call `nextNode` and signal `io.EOF` as soon as the stack is empty; otherwise
copy `min(k, len(cur) - pos)` bytes from the current leaf and advance.  The
`while` loop is run on explicit fuel; exhausted fuel is reported as an abort
(used only above the fuel actually needed on the inputs below). -/
def readR (k : Nat) : Nat → ReaderS → ReadRes
  | 0, _ => ReadRes.abortR
  | fuel + 1, st =>
    if st.pos = st.cur.length then
      match nextNodeR st with
      | none => ReadRes.abortR
      | some st2 => if st2.stack = [] then ReadRes.eofR else readR k fuel st2
    else
      ReadRes.chunk ((st.cur.drop st.pos).take k)
        { st with pos := st.pos + min k (st.cur.length - st.pos) }

/-- Repeated `Read` calls with a `k`-byte buffer until `io.EOF`, concatenating
the chunks; `none` if any call aborts (or fuel runs out). -/
def readAllR (k : Nat) : Nat → ReaderS → Option String
  | 0, _ => none
  | fuel + 1, st =>
    match readR k (fuel + 1) st with
    | ReadRes.abortR => none
    | ReadRes.eofR => some ""
    | ReadRes.chunk s st2 =>
      match readAllR k fuel st2 with
      | none => none
      | some rest => some (s ++ rest)

example :
    readAllR 4 10 (newReaderR ⟨some (conc (Node.leaf "ab") (Node.leaf "cd") 0 0)⟩)
      = some "ab" := by decide
example : readAllR 4 10 (newReaderR ⟨some (Node.leaf "abc")⟩) = none := by decide
example : readR 1 3 (newReaderR ⟨none⟩) = ReadRes.abortR := by decide

/-- The initial contents of the global `fibCache` (29 entries, duplicate 1
omitted). -/
def fibCache0 : List Int :=
  [1, 2, 3, 5, 8, 13, 21, 34, 55, 89, 144, 233, 377, 610, 987,
   1597, 2584, 4181, 6765, 10946, 17711, 28657, 46368, 75025, 121393,
   196418, 317811, 514229, 832040]

/-- `getFibCache(N)` exactly as written in the source: it tests
`fibCache[len(fibCache)] < N`, and `len(fibCache)` is one past the last valid
index, so the access is out of range (a runtime bounds panic, `none` here)
before `N` is ever consulted.  The locking around the cache is irrelevant to
the value and is not modelled; no call ever succeeds, so the global cache
keeps its initial value. -/
def getFibCacheP (N : Int) : Option (List Int) :=
  match fibCache0.get? fibCache0.length with
  | none => none
  | some last => if last < N then some fibCache0 else some fibCache0

/-- The mathematical Fibonacci-like sequence underlying the cache:
`1, 2, 3, 5, 8, 13, ...`. -/
def fibSeq : Nat → Int
  | 0 => 1
  | 1 => 2
  | n + 2 => fibSeq n + fibSeq (n + 1)

/-- The `extendFibs` loop: starting from the last two entries `a, b`, append
`a+b` while the last entry is below `N`.  The Go `for` loop terminates
because the entries grow; here it runs on fuel (each step raises the last
entry by at least 1 once `1 ≤ a`, so `N.toNat + 2` steps always suffice). -/
def extendLoop (N : Int) : Nat → Int → Int → List Int → List Int
  | 0, _, _, acc => acc
  | fuel + 1, a, b, acc =>
    if b < N then extendLoop N fuel b (a + b) (acc ++ [a + b]) else acc

/-- Comparison definition following the accessor's documented contract
(`getFibCache` "gets a reference to the current fibCache, extended to at
least cover N"): test the last entry — index `len(fibCache)-1`, where the
body as written reads index `len(fibCache)`, see `getFibCacheP` — and extend
with `extendFibs` when it is below `N`.  Used to examine the behaviour of
`isBalanced` and `Rebalance` beyond the accessor's bounds bug. -/
def getFibCacheC (N : Int) : List Int :=
  if fibCache0.getLastD 0 < N then
    extendLoop N (N.toNat + 2) (fibCache0.getD (fibCache0.length - 2) 0)
      (fibCache0.getLastD 0) fibCache0
  else fibCache0

/-- The loop of `binSearch(N, arr)`: Go ints `start`/`end` with the virtual
sentinels `start = -1`, `end = len(arr)`, bisecting while `end - start > 1`.
The array access `arr[mid]` is modelled with `get?` (`none` = bounds panic;
`mid` is also guarded against being negative, which cannot happen since
`start + end ≥ 0` whenever the loop body runs with `start ≥ -1`, and then
Go's truncated division agrees with Lean's `Int` division).  Fuel: the gap
`end - start` shrinks every iteration, so `arr.length + 2` steps suffice. -/
def binSearchGo (N : Int) (arr : List Int) : Nat → Int → Int → Option Int
  | 0, _, _ => none
  | fuel + 1, start, e =>
    if e - start > 1 then
      let mid := (start + e) / 2
      if mid < 0 then none
      else
        match arr.get? mid.toNat with
        | none => none
        | some elt =>
          if elt < N then binSearchGo N arr fuel mid e
          else if N < elt then binSearchGo N arr fuel start mid
          else some mid
    else some e

/-- `binSearch(N, arr)`: the bisection loop started at the virtual bounds. -/
def binSearch (N : Int) (arr : List Int) : Option Int :=
  binSearchGo N arr (arr.length + 2) (-1) (arr.length : Int)

/-- `reverseFib(N)` as written: `binSearch(N, getFibCache(N))`; the cache
accessor aborts, so this never returns an index. -/
def reverseFibP (N : Int) : Option Int :=
  match getFibCacheP N with
  | none => none
  | some fibs => binSearch N fibs

/-- `reverseFib(N)` over the contract-following cache accessor
`getFibCacheC`. -/
def reverseFibF (N : Int) : Option Int :=
  binSearch N (getFibCacheC N)

/-- `Rope.isBalanced()` as written: `true` for a nil root or the canonical
empty node, else compare the root depth against `reverseFib(len) - 2`
(which aborts in `getFibCache`). -/
def isBalancedP (r : Rope) : Option Bool :=
  match r.node with
  | none => some true
  | some n =>
    if n = Node.leaf "" then some true
    else
      match reverseFibP (nlength n) with
      | none => none
      | some idx => some (decide ((depthN n : Int) ≤ idx - 2))

/-- `Rope.isBalanced()` with the cache accessor replaced by its documented
contract (`getFibCacheC`); everything else as written. -/
def isBalancedF (r : Rope) : Option Bool :=
  match r.node with
  | none => some true
  | some n =>
    if n = Node.leaf "" then some true
    else
      match reverseFibF (nlength n) with
      | none => none
      | some idx => some (decide ((depthN n : Int) ≤ idx - 2))

example : isBalancedF (newR "a") = some false := by decide
example : isBalancedF emptyRope = some true := by decide

/-- `walkLeaves(f)`, collected into the list of leaf strings in visit order.
The `concat` case is from the source (`c.left.walkLeaves(f)` then
`c.right.walkLeaves(f)`).  Leaf case modelled from the spec: the leaf variant
of `walkLeaves` is not among the provided source files; per the spec the
traversal visits "the tree's leaves strictly left-to-right (in-order)"
calling `f` on each leaf, so a leaf yields itself. -/
def leavesN : Node → List String
  | Node.leaf s => [s]
  | Node.concat l r _ _ _ => leavesN l ++ leavesN r

/-- The package's `Debug` flag, `true` in the source. -/
def Debug : Bool := true

/-- A `B` scratch entry: node and its length (`nil` = unoccupied slot). -/
def BSlot : Type := Option (Node × Int)

instance : DecidableEq BSlot := by
  unfold BSlot
  infer_instance

/-- The inner merge loop of `Rebalance` for one leaf, exactly as written:
`for i := bucket; i >= 0; i--` runs `bucket+1` times, but the body reads and
clears `scratch[bucket]` (the source indexes with `bucket`, not with the
loop variable `i`), and merges as `n = conc(n, b.n, nLen, b.len)` — the new
node on the left, the stored accumulation on the right.  The counter is the
remaining number of iterations; `none` models an out-of-range access. -/
def mergeLoop (bucket : Nat) :
    Nat → Node → Int → List BSlot → Option (Node × Int × List BSlot)
  | 0, n, nLen, scr => some (n, nLen, scr)
  | fuel + 1, n, nLen, scr =>
    match scr.get? bucket with
    | none => none
    | some none => mergeLoop bucket fuel n nLen scr
    | some (some (bn, blen)) =>
        mergeLoop bucket fuel (conc n bn nLen blen) (nLen + blen)
          (scr.set bucket none)

/-- One step of the leaf walk in `Rebalance`: compute the leaf's bucket,
run the merge loop, perform the `Debug` consistency check (`panic` when the
recomputed bucket differs), and store the accumulated node in
`scratch[bucket]`. -/
def rebalStep (fibs : List Int) (scrOpt : Option (List BSlot)) (l : String) :
    Option (List BSlot) :=
  match scrOpt with
  | none => none
  | some scratch =>
    let nLen : Int := (l.length : Int)
    match binSearch nLen fibs with
    | none => none
    | some bucketI =>
      let bucket := bucketI.toNat
      match mergeLoop bucket (bucket + 1) (Node.leaf l) nLen scratch with
      | none => none
      | some (n, nLen2, scratch2) =>
        if Debug then
          match binSearch nLen2 fibs with
          | none => none
          | some b2 =>
            if b2 ≠ bucketI then none  -- panic("Bucket grew from %d to %d")
            else if bucket < scratch2.length then
              some (scratch2.set bucket (some (n, nLen2)))
            else none
        else
          if bucket < scratch2.length then
            some (scratch2.set bucket (some (n, nLen2)))
          else none

/-- The final fold of `Rebalance` over the scratch array, low index first:
`nw.n = conc(b.n, nw.n, b.len, nw.len)` — the current slot on the left of
the accumulation. -/
def finalFold (scr : List BSlot) : BSlot :=
  scr.foldl
    (fun nw b =>
      match b with
      | none => nw
      | some (bn, blen) =>
        match nw with
        | none => some (bn, blen)
        | some (nwn, nwlen) => some (conc bn nwn blen nwlen, nwlen + blen))
    none

/-- The body of `Rebalance` after the Fibonacci cache has been obtained:
allocate `1 + binSearch(len, fibs)` scratch slots, walk the leaves with
`rebalStep`, fold the remaining slots, and rebuild the handle.  A nil root
makes `r.node.walkLeaves(...)` a method call on a nil interface (a panic).
The final `nw.n == r.node` pointer comparison is modelled as structural
equality; the two coincide on every input evaluated below. -/
def rebalanceCore (fibs : List Int) (r : Rope) : Option Rope :=
  match r.node with
  | none => none
  | some root =>
    match binSearch (lenR r) fibs with
    | none => none
    | some szI =>
      let scratch : List BSlot := List.replicate (1 + szI.toNat) none
      match (leavesN root).foldl (rebalStep fibs) (some scratch) with
      | none => none
      | some scratch2 =>
        match finalFold scratch2 with
        | none => some ⟨none⟩
        | some (nwn, _) => if nwn = root then some r else some ⟨some nwn⟩

/-- `Rope.Rebalance()` as written: `getFibCache(r.Len())` aborts with its
out-of-range read before any rebalancing happens. -/
def rebalanceP (r : Rope) : Option Rope :=
  match getFibCacheP (lenR r) with
  | none => none
  | some fibs => rebalanceCore fibs r

/-- `Rope.Rebalance()` with the cache accessor replaced by its documented
contract (`getFibCacheC`); everything else as written. -/
def rebalanceF (r : Rope) : Option Rope :=
  rebalanceCore (getFibCacheC (lenR r)) r

example :
    concatR (newR "a") [newR "bc"]
      = ⟨some (conc (Node.leaf "a") (Node.leaf "bc") 0 0)⟩ := by
  have h1 : newR "a" = ⟨some (Node.leaf "a")⟩ := rfl
  have h2 : newR "bc" = ⟨some (Node.leaf "bc")⟩ := rfl
  rw [h1, h2]
  simp [concatR, concMany]
example :
    (rebalanceF ⟨some (conc (Node.leaf "a") (Node.leaf "bc") 0 0)⟩).map matR
      = some "bca" := by decide
example :
    rebalanceF ⟨some (conc (Node.leaf "a") (Node.leaf "b") 0 0)⟩ = none := by decide

/-- Split/length-cache consistency of a tree, the invariant the concatenation
builder maintains: every `concat`'s `split` equals the left child's length
and its `rLen` cache is either `0` (unknown / out of the `uint32` range) or
exactly the right child's length. -/
def WFb : Node → Bool
  | Node.leaf _ => true
  | Node.concat l r split rLen _ =>
      WFb l && WFb r && decide (split = nlength l)
        && decide ((rLen : Int) = nlength r ∨ rLen = 0)

/-- A single-element leaf. -/
def oneChar : Node → Bool
  | Node.leaf s => decide (s.length = 1)
  | Node.concat _ _ _ _ _ => false

/-- The least index whose entry is `≥ N` (the length of the list when there
is none, `0` for the empty list): the reference value for `binSearch`. -/
def lowerIdx (N : Int) : List Int → Nat
  | [] => 0
  | x :: xs => if N ≤ x then 0 else lowerIdx N xs + 1

/-- A family of consistent (`WFb`) trees of doubling length, used to exhibit
the `uint32` overflow path of `conc` on a concretely evaluable node:
`bigT k` has length `4 * 2^k` with every cache filled per the invariant. -/
def bigT : Nat → Node
  | 0 => Node.leaf "abcd"
  | k + 1 =>
    let t := bigT k
    let len := nlength t
    Node.concat t t len (if len > 4294967295 then 0 else len.toNat) (k + 1)

theorem strLenDrop (s : String) (n : Nat) : (s.drop n).length = s.length - n := by
  have h1 : (s.drop n).length = (s.drop n).data.length := rfl
  have h2 : s.length = s.data.length := rfl
  rw [h1, h2, String.data_drop, List.length_drop]

theorem strLenTake (s : String) (n : Nat) : (s.take n).length = min n s.length := by
  have h1 : (s.take n).length = (s.take n).data.length := rfl
  have h2 : s.length = s.data.length := rfl
  rw [h1, h2, String.data_take, List.length_take]

theorem matN_conc (l r : Node) (h1 h2 : Int) :
    matN (conc l r h1 h2) = matN l ++ matN r := by
  by_cases hl : l = Node.leaf ""
  · subst hl
    simp [conc, matN]
  · by_cases hr : r = Node.leaf ""
    · subst hr
      simp [conc, hl, matN]
    · simp [conc, hl, hr, matN]

theorem conc_split (l r : Node) (hl : l ≠ Node.leaf "") (hr : r ≠ Node.leaf "") :
    splitOf (conc l r 0 0) = some (nlength l) := by
  simp [conc, hl, hr, splitOf]

theorem conc_depth (l r : Node) (hl : l ≠ Node.leaf "") (hr : r ≠ Node.leaf "") :
    depthN (conc l r 0 0) = 1 + max (depthN l) (depthN r) := by
  simp [conc, hl, hr, depthN]
  omega

theorem conc_left_empty (r : Node) (h1 h2 : Int) : conc (Node.leaf "") r h1 h2 = r := by
  simp [conc]

theorem conc_right_empty (l : Node) (h1 h2 : Int) : conc l (Node.leaf "") h1 h2 = l := by
  by_cases hl : l = Node.leaf ""
  · subst hl
    rfl
  · simp [conc, hl]

theorem concMany_pair (a b : Node) : concMany a [b] = conc a b 0 0 := by
  simp [concMany]

theorem concatR_pair (a b : Rope) : matR (concatR a [b]) = matR a ++ matR b := by
  obtain ⟨na⟩ := a
  obtain ⟨nb⟩ := b
  cases na with
  | none =>
    cases nb with
    | none => rfl
    | some m => rfl
  | some n =>
    cases nb with
    | none =>
      show matR ⟨some (concMany n [])⟩ = _
      simp [concMany, matR]
    | some m =>
      show matR ⟨some (concMany n [m])⟩ = _
      rw [concMany_pair]
      show matN (conc n m 0 0) = _
      rw [matN_conc]
      rfl

theorem conc_ne (lhs rhs : Node) (h1 h2 : Int)
    (hl : lhs ≠ Node.leaf "") (hr : rhs ≠ Node.leaf "") :
    conc lhs rhs h1 h2 =
      Node.concat lhs rhs
        (if h1 ≤ 0 then nlength lhs else h1)
        (((if (if h2 ≤ 0 then nlength rhs else h2) > 4294967295 then 0
            else (if h2 ≤ 0 then nlength rhs else h2)) % 4294967296).toNat)
        (max (depthN lhs) (depthN rhs) + 1) := by
  simp [conc, hl, hr]

theorem WFb_concat_parts (l r : Node) (s : Int) (rl d : Nat)
    (hw : WFb (Node.concat l r s rl d) = true) :
    WFb l = true ∧ WFb r = true ∧ s = nlength l ∧
      ((rl : Int) = nlength r ∨ rl = 0) := by
  simp [WFb] at hw
  tauto

theorem WFb_nonneg (n : Node) (hw : WFb n = true) : 0 ≤ nlength n := by
  induction n with
  | leaf s => simp [nlength]
  | concat l r split rLen d ihl ihr =>
    obtain ⟨hwl, hwr, hsplit, hrl⟩ := WFb_concat_parts l r split rLen d hw
    have h1 := ihl hwl
    have h2 := ihr hwr
    simp only [nlength]
    split_ifs with hpos
    · omega
    · omega

theorem nlength_WF_concat (l r : Node) (s : Int) (rl d : Nat)
    (hw : WFb (Node.concat l r s rl d) = true) :
    nlength (Node.concat l r s rl d) = nlength l + nlength r := by
  obtain ⟨hwl, hwr, hsplit, hrl⟩ := WFb_concat_parts l r s rl d hw
  simp only [nlength]
  split_ifs with hpos
  · rcases hrl with h | h
    · omega
    · omega
  · omega

theorem rLengthN_WF_concat (l r : Node) (s : Int) (rl d : Nat)
    (hw : WFb (Node.concat l r s rl d) = true) :
    rLengthN (Node.concat l r s rl d) = nlength r := by
  obtain ⟨hwl, hwr, hsplit, hrl⟩ := WFb_concat_parts l r s rl d hw
  have hnn := WFb_nonneg r hwr
  simp only [rLengthN]
  split_ifs with hpos
  · rcases hrl with h | h
    · omega
    · omega
  · rfl

theorem conc_length (lhs rhs : Node) (h1 h2 : Int)
    (hwr : WFb rhs = true)
    (hv1 : h1 ≤ 0 ∨ h1 = nlength lhs) (hv2 : h2 ≤ 0 ∨ h2 = nlength rhs) :
    nlength (conc lhs rhs h1 h2) = nlength lhs + nlength rhs := by
  by_cases hl : lhs = Node.leaf ""
  · subst hl
    rw [conc_left_empty]
    simp [nlength]
  · by_cases hr : rhs = Node.leaf ""
    · subst hr
      rw [conc_right_empty]
      simp [nlength]
    · have hnn : 0 ≤ nlength rhs := WFb_nonneg rhs hwr
      rw [conc_ne lhs rhs h1 h2 hl hr]
      simp only [nlength]
      split_ifs with ha hb hc hd he hf hg <;> omega

theorem conc_WF (lhs rhs : Node) (h1 h2 : Int)
    (hwl : WFb lhs = true) (hwr : WFb rhs = true)
    (hv1 : h1 ≤ 0 ∨ h1 = nlength lhs) (hv2 : h2 ≤ 0 ∨ h2 = nlength rhs) :
    WFb (conc lhs rhs h1 h2) = true := by
  by_cases hl : lhs = Node.leaf ""
  · subst hl
    rw [conc_left_empty]
    exact hwr
  · by_cases hr : rhs = Node.leaf ""
    · subst hr
      rw [conc_right_empty]
      exact hwl
    · have hnn : 0 ≤ nlength rhs := WFb_nonneg rhs hwr
      rw [conc_ne lhs rhs h1 h2 hl hr]
      simp only [WFb, hwl, hwr, Bool.true_and, Bool.and_eq_true, decide_eq_true_eq]
      constructor
      · split_ifs with ha <;> omega
      · split_ifs with ha hb hc <;> omega

theorem dropPrefixL_spec (s : String) (k : Int) :
    WFb (dropPrefixL s k) = true ∧
      nlength (dropPrefixL s k) =
        (if k ≤ 0 then (s.length : Int)
         else if k < (s.length : Int) then (s.length : Int) - k else 0) := by
  unfold dropPrefixL
  split_ifs with hge hle hle2 hlt <;>
    simp_all [WFb, nlength, strLenDrop] <;> omega

theorem dropPrefixN_spec (n : Node) :
    ∀ k : Int, WFb n = true →
      WFb (dropPrefixN n k) = true ∧
      nlength (dropPrefixN n k) =
        (if k ≤ 0 then nlength n
         else if k < nlength n then nlength n - k else 0) := by
  induction n with
  | leaf s =>
    intro k _
    exact dropPrefixL_spec s k
  | concat l r split rLen d ihl ihr =>
    intro k hw
    obtain ⟨hwl, hwr, hsplit, hrl⟩ := WFb_concat_parts l r split rLen d hw
    have hlen := nlength_WF_concat l r split rLen d hw
    have hnnl := WFb_nonneg l hwl
    have hnnr := WFb_nonneg r hwr
    by_cases hk : k ≤ 0
    · simp only [dropPrefixN, if_pos hk]
      exact ⟨hw, by trivial⟩
    · by_cases hlt : k < split
      · simp only [dropPrefixN, if_neg hk, if_pos hlt]
        obtain ⟨ihwf, ihlen⟩ := ihl k hwl
        have hdl : nlength (dropPrefixN l k) = nlength l - k := by
          rw [ihlen]
          split_ifs <;> omega
        have hv1 : split - k ≤ 0 ∨ split - k = nlength (dropPrefixN l k) := by
          right
          omega
        have hv2 : (rLen : Int) ≤ 0 ∨ (rLen : Int) = nlength r := by
          rcases hrl with h | h
          · right; exact h
          · left; omega
        refine ⟨conc_WF _ _ _ _ ihwf hwr hv1 hv2, ?_⟩
        rw [conc_length _ _ _ _ hwr hv1 hv2, hdl, hlen]
        split_ifs <;> omega
      · simp only [dropPrefixN, if_neg hk, if_neg hlt]
        obtain ⟨ihwf, ihlen⟩ := ihr (k - split) hwr
        refine ⟨ihwf, ?_⟩
        rw [ihlen, hlen]
        split_ifs <;> omega

theorem dropPostfixL_spec (s : String) (e : Int) :
    WFb (dropPostfixL s e) = true ∧
      nlength (dropPostfixL s e) =
        (if e ≤ 0 then 0
         else if e < (s.length : Int) then e else (s.length : Int)) := by
  unfold dropPostfixL
  split_ifs with hge hle hle2 hlt <;>
    simp_all [WFb, nlength, strLenTake] <;> omega

theorem dropPostfixN_spec (n : Node) :
    ∀ e : Int, WFb n = true →
      WFb (dropPostfixN n e) = true ∧
      nlength (dropPostfixN n e) =
        (if e ≤ 0 then 0
         else if e < nlength n then e else nlength n) := by
  induction n with
  | leaf s =>
    intro e _
    exact dropPostfixL_spec s e
  | concat l r split rLen d ihl ihr =>
    intro e hw
    obtain ⟨hwl, hwr, hsplit, hrl⟩ := WFb_concat_parts l r split rLen d hw
    have hlen := nlength_WF_concat l r split rLen d hw
    have hrlen := rLengthN_WF_concat l r split rLen d hw
    have hnnl := WFb_nonneg l hwl
    have hnnr := WFb_nonneg r hwr
    by_cases he : e ≤ 0
    · simp only [dropPostfixN, if_pos he]
      refine ⟨rfl, ?_⟩
      simp [nlength]
    · by_cases hle : e ≤ split
      · simp only [dropPostfixN, if_neg he, if_pos hle]
        obtain ⟨ihwf, ihlen⟩ := ihl e hwl
        refine ⟨ihwf, ?_⟩
        rw [ihlen, hlen]
        split_ifs <;> omega
      · by_cases hfull : e ≥ split + rLengthN (Node.concat l r split rLen d)
        · simp only [dropPostfixN, if_neg he, if_neg hle, if_pos hfull]
          rw [hrlen] at hfull
          refine ⟨hw, ?_⟩
          rw [hlen]
          split_ifs <;> omega
        · simp only [dropPostfixN, if_neg he, if_neg hle, if_neg hfull]
          rw [hrlen] at hfull
          obtain ⟨ihwf, ihlen⟩ := ihr (e - split) hwr
          have hdr : nlength (dropPostfixN r (e - split)) = e - split := by
            rw [ihlen]
            split_ifs <;> omega
          have hv1 : split ≤ 0 ∨ split = nlength l := Or.inr hsplit
          have hv2 : e - split ≤ 0 ∨
              e - split = nlength (dropPostfixN r (e - split)) := by
            right
            omega
          refine ⟨conc_WF _ _ _ _ hwl ihwf hv1 hv2, ?_⟩
          rw [conc_length _ _ _ _ ihwf hv1 hv2, hdr, hlen]
          split_ifs <;> omega

theorem concMany_WF_aux (m : Nat) :
    ∀ (first : Node) (others : List Node), others.length ≤ m →
      WFb first = true → (∀ x ∈ others, WFb x = true) →
      WFb (concMany first others) = true := by
  induction m with
  | zero =>
    intro first others hlen hf ho
    have : others = [] := List.eq_nil_of_length_eq_zero (by omega)
    subst this
    simpa [concMany]
  | succ m ih =>
    intro first others hlen hf ho
    match others with
    | [] => simpa [concMany]
    | o :: os =>
      rw [concMany]
      apply conc_WF
      · apply ih first _ _ hf
        · intro x hx
          exact ho x (List.mem_of_mem_take hx)
        · have hc : (o :: os).length = os.length + 1 := rfl
          rw [hc] at hlen
          simp [List.length_take]
          omega
      · apply ih
        · have hc : (o :: os).length = os.length + 1 := rfl
          rw [hc] at hlen
          simp [List.length_drop]
          omega
        · apply ho
          have hsplit : (o :: os).length / 2 < (o :: os).length := by
            simp
            omega
          rw [List.getD_eq_getElem _ _ hsplit]
          exact List.getElem_mem hsplit
        · intro x hx
          exact ho x (List.mem_of_mem_drop hx)
      · exact Or.inl le_rfl
      · exact Or.inl le_rfl

theorem conc_depth_le (l r : Node) (h1 h2 : Int) :
    depthN (conc l r h1 h2) ≤ 1 + max (depthN l) (depthN r) := by
  by_cases hl : l = Node.leaf ""
  · subst hl
    rw [conc_left_empty]
    simp [depthN]
  · by_cases hr : r = Node.leaf ""
    · subst hr
      rw [conc_right_empty]
      simp [depthN]
    · rw [conc_ne l r h1 h2 hl hr]
      simp [depthN]
      omega

theorem concMany_nil (first : Node) : concMany first [] = first := by
  simp [concMany]

theorem oneChar_depth (n : Node) (h : oneChar n = true) : depthN n = 0 := by
  cases n with
  | leaf s => rfl
  | concat a b c e f => simp [oneChar] at h

theorem concMany_depth_aux (m : Nat) :
    ∀ (first : Node) (others : List Node), others.length ≤ m →
      oneChar first = true → (∀ x ∈ others, oneChar x = true) →
      depthN (concMany first others) ≤ Nat.clog 2 (others.length + 1) := by
  induction m with
  | zero =>
    intro first others hlen hf ho
    have : others = [] := List.eq_nil_of_length_eq_zero (by omega)
    subst this
    rw [concMany_nil, oneChar_depth first hf]
    exact Nat.zero_le _
  | succ m ih =>
    intro first others hlen hf ho
    match others with
    | [] =>
      rw [concMany_nil, oneChar_depth first hf]
      exact Nat.zero_le _
    | o :: os =>
      rw [concMany]
      have hc : (o :: os).length = os.length + 1 := rfl
      have hbound1 :
          depthN (concMany first ((o :: os).take ((o :: os).length / 2)))
            ≤ Nat.clog 2 (((o :: os).take ((o :: os).length / 2)).length + 1) :=
        ih first _ (by rw [List.length_take, hc]; rw [hc] at hlen; omega) hf
          (fun x hx => ho x (List.mem_of_mem_take hx))
      have hmem : (o :: os).getD ((o :: os).length / 2) (Node.leaf "") ∈ o :: os := by
        have hsp : (o :: os).length / 2 < (o :: os).length := by
          rw [hc]
          omega
        rw [List.getD_eq_getElem _ _ hsp]
        exact List.getElem_mem hsp
      have hbound2 :
          depthN (concMany ((o :: os).getD ((o :: os).length / 2) (Node.leaf ""))
              ((o :: os).drop ((o :: os).length / 2 + 1)))
            ≤ Nat.clog 2 (((o :: os).drop ((o :: os).length / 2 + 1)).length + 1) :=
        ih _ _ (by rw [List.length_drop, hc]; rw [hc] at hlen; omega) (ho _ hmem)
          (fun x hx => ho x (List.mem_of_mem_drop hx))
      have harg1 : ((o :: os).take ((o :: os).length / 2)).length + 1
          = (os.length + 1) / 2 + 1 := by
        rw [List.length_take, hc]
        omega
      have harg2 : ((o :: os).drop ((o :: os).length / 2 + 1)).length + 1
          = os.length - (os.length + 1) / 2 + 1 := by
        rw [List.length_drop, hc]
        omega
      rw [harg1] at hbound1
      rw [harg2] at hbound2
      have hstep := conc_depth_le
        (concMany first ((o :: os).take ((o :: os).length / 2)))
        (concMany ((o :: os).getD ((o :: os).length / 2) (Node.leaf ""))
          ((o :: os).drop ((o :: os).length / 2 + 1))) 0 0
      have hmono1 : Nat.clog 2 ((os.length + 1) / 2 + 1)
          ≤ Nat.clog 2 ((os.length + 3) / 2) :=
        Nat.clog_mono_right 2 (by omega)
      have hmono2 : Nat.clog 2 (os.length - (os.length + 1) / 2 + 1)
          ≤ Nat.clog 2 ((os.length + 3) / 2) :=
        Nat.clog_mono_right 2 (by omega)
      have hrec : Nat.clog 2 (os.length + 2)
          = Nat.clog 2 ((os.length + 3) / 2) + 1 := by
        have h := @Nat.clog_of_two_le 2 (os.length + 2) (by norm_num) (by omega)
        have harith : os.length + 2 + 2 - 1 = os.length + 3 := by omega
        rw [harith] at h
        exact h
      have hgoal : Nat.clog 2 ((o :: os).length + 1)
          = Nat.clog 2 (os.length + 2) := by
        rw [hc]
      rw [hgoal]
      omega

theorem lowerIdx_le_length (N : Int) (arr : List Int) : lowerIdx N arr ≤ arr.length := by
  induction arr with
  | nil => simp [lowerIdx]
  | cons x xs ih =>
    unfold lowerIdx
    split_ifs with h
    · simp
    · simp only [List.length_cons]
      omega

theorem lowerIdx_lt (N : Int) (arr : List Int) :
    ∀ j : Nat, j < lowerIdx N arr → arr.getD j 0 < N := by
  induction arr with
  | nil => intro j hj; simp [lowerIdx] at hj
  | cons x xs ih =>
    intro j hj
    unfold lowerIdx at hj
    split_ifs at hj with h
    · omega
    · cases j with
      | zero => simpa [List.getD_cons_zero] using (by omega : x < N)
      | succ j2 =>
        have := ih j2 (by omega)
        simpa [List.getD_cons_succ]

theorem lowerIdx_ge (N : Int) (arr : List Int) :
    lowerIdx N arr < arr.length → N ≤ arr.getD (lowerIdx N arr) 0 := by
  induction arr with
  | nil => intro h; simp [lowerIdx] at h
  | cons x xs ih =>
    intro hlt
    simp only [lowerIdx, List.length_cons] at hlt ⊢
    split_ifs at hlt ⊢ with h
    · simpa [List.getD_cons_zero]
    · simpa [List.getD_cons_succ] using ih (by omega)

theorem lowerIdx_unique (N : Int) (arr : List Int) (k : Nat)
    (hk : k ≤ arr.length)
    (hbelow : ∀ j : Nat, j < k → arr.getD j 0 < N)
    (hat : k < arr.length → N ≤ arr.getD k 0) :
    lowerIdx N arr = k := by
  by_contra hne
  rcases Nat.lt_or_ge (lowerIdx N arr) k with h | h
  · have h1 := lowerIdx_ge N arr (by omega)
    have h2 := hbelow _ h
    omega
  · have hklt : k < arr.length := by
      rcases Nat.lt_or_ge k arr.length with h2 | h2
      · exact h2
      · have := lowerIdx_le_length N arr
        omega
    have h1 := hat hklt
    have h2 := lowerIdx_lt N arr k (by omega)
    omega

theorem sorted_getD_lt (arr : List Int) (hs : List.Pairwise (· < ·) arr)
    (i j : Nat) (hij : i < j) (hj : j < arr.length) :
    arr.getD i 0 < arr.getD j 0 := by
  have hi : i < arr.length := lt_trans hij hj
  rw [List.getD_eq_getElem _ _ hi, List.getD_eq_getElem _ _ hj]
  have h := List.pairwise_iff_get.mp hs ⟨i, hi⟩ ⟨j, hj⟩ hij
  simpa [List.get_eq_getElem] using h

theorem binSearchGo_correct (N : Int) (arr : List Int)
    (hs : List.Pairwise (· < ·) arr) :
    ∀ (fuel : Nat) (start e : Int),
      -1 ≤ start → start < e → e ≤ (arr.length : Int) →
      (e - start).toNat ≤ fuel →
      (∀ j : Nat, (j : Int) ≤ start → arr.getD j 0 < N) →
      (∀ j : Nat, e ≤ (j : Int) → j < arr.length → N < arr.getD j 0) →
      binSearchGo N arr fuel start e = some ((lowerIdx N arr : Nat) : Int) := by
  intro fuel
  induction fuel with
  | zero =>
    intro start e h1 h2 h3 h4 _ _
    omega
  | succ fuel ih =>
    intro start e h1 h2 h3 h4 hlow hhigh
    by_cases hgap : e - start > 1
    · have hmid1 : start < (start + e) / 2 := by omega
      have hmid2 : (start + e) / 2 < e := by omega
      have hmid0 : ¬ (start + e) / 2 < 0 := by omega
      have hmidlt : ((start + e) / 2).toNat < arr.length := by omega
      have hget : arr.get? ((start + e) / 2).toNat
          = some (arr.getD ((start + e) / 2).toNat 0) := by
        rw [List.getD_eq_getElem _ _ hmidlt, List.get?_eq_getElem?,
          List.getElem?_eq_getElem hmidlt]
      simp only [binSearchGo, if_pos hgap, if_neg hmid0, hget]
      by_cases hlt : arr.getD ((start + e) / 2).toNat 0 < N
      · rw [if_pos hlt]
        apply ih ((start + e) / 2) e (by omega) (by omega) h3 (by omega)
        · intro j hj
          rcases Nat.lt_or_ge j ((start + e) / 2).toNat with hc | hc
          · have := sorted_getD_lt arr hs j (((start + e) / 2).toNat) hc hmidlt
            omega
          · have hje : j = ((start + e) / 2).toNat := by omega
            rw [hje]
            exact hlt
        · exact hhigh
      · by_cases hgt : N < arr.getD ((start + e) / 2).toNat 0
        · rw [if_neg hlt, if_pos hgt]
          apply ih start ((start + e) / 2) h1 (by omega) (by omega) (by omega) hlow
          intro j hj hjlen
          rcases Nat.lt_or_ge (((start + e) / 2).toNat) j with hc | hc
          · have := sorted_getD_lt arr hs (((start + e) / 2).toNat) j hc hjlen
            omega
          · have hje : j = ((start + e) / 2).toNat := by omega
            rw [hje]
            exact hgt
        · rw [if_neg hlt, if_neg hgt]
          have heq : lowerIdx N arr = ((start + e) / 2).toNat := by
            apply lowerIdx_unique
            · omega
            · intro j hj
              have := sorted_getD_lt arr hs j (((start + e) / 2).toNat) hj hmidlt
              omega
            · intro _
              omega
          rw [heq]
          congr 1
          omega
    · simp only [binSearchGo, if_neg hgap]
      have he : lowerIdx N arr = e.toNat := by
        apply lowerIdx_unique
        · omega
        · intro j hj
          exact hlow j (by omega)
        · intro hlt
          have := hhigh e.toNat (by omega) hlt
          omega
      rw [he]
      congr 1
      omega

theorem binSearch_correct (N : Int) (arr : List Int)
    (hs : List.Pairwise (· < ·) arr) :
    binSearch N arr = some ((lowerIdx N arr : Nat) : Int) := by
  unfold binSearch
  apply binSearchGo_correct N arr hs (arr.length + 2) (-1) (arr.length : Int)
  · omega
  · omega
  · omega
  · omega
  · intro j hj
    omega
  · intro j hj hjlen
    omega

theorem getFibCacheP_none (N : Int) : getFibCacheP N = none := rfl

theorem rebalanceP_none (r : Rope) : rebalanceP r = none := by
  simp [rebalanceP, getFibCacheP_none]

theorem isBalancedP_char (r : Rope) :
    isBalancedP r =
      (if r.node = none ∨ r.node = some (Node.leaf "") then some true
       else none) := by
  obtain ⟨nodeOpt⟩ := r
  cases nodeOpt with
  | none => simp [isBalancedP]
  | some n =>
    by_cases hn : n = Node.leaf ""
    · subst hn
      simp [isBalancedP]
    · simp [isBalancedP, hn, reverseFibP, getFibCacheP_none]

theorem conc_overflow (lhs rhs : Node) (h2 : Int)
    (hv2 : h2 ≤ 0 ∨ h2 = nlength rhs)
    (hbig : nlength rhs > 4294967295)
    (hl : lhs ≠ Node.leaf "") (hr : rhs ≠ Node.leaf "") :
    rLenOf (conc lhs rhs 0 h2) = some 0 := by
  rw [conc_ne lhs rhs 0 h2 hl hr]
  simp only [rLenOf, Option.some.injEq]
  rcases hv2 with h | h <;> split_ifs <;> omega

theorem bigT_facts (k : Nat) : nlength (bigT k) = 4 * 2 ^ k ∧ WFb (bigT k) = true := by
  induction k with
  | zero => exact ⟨by decide, rfl⟩
  | succ k ih =>
    obtain ⟨hl, hw⟩ := ih
    have hpos : (0 : Int) < nlength (bigT k) := by
      rw [hl]
      positivity
    have hkey : nlength (bigT (k + 1)) = nlength (bigT k) + nlength (bigT k) := by
      simp only [bigT, nlength]
      by_cases hbig : nlength (bigT k) > 4294967295
      · rw [if_pos hbig]
        simp
      · rw [if_neg hbig]
        have h1 : (nlength (bigT k)).toNat > 0 := by omega
        rw [if_pos h1]
        have h2 : ((nlength (bigT k)).toNat : Int) = nlength (bigT k) := by omega
        rw [h2]
    constructor
    · rw [hkey, hl]
      ring
    · simp only [bigT, WFb, Bool.and_eq_true, decide_eq_true_eq]
      refine ⟨⟨⟨hw, hw⟩, trivial⟩, ?_⟩
      by_cases hbig : nlength (bigT k) > 4294967295
      · rw [if_pos hbig]
        right
        rfl
      · rw [if_neg hbig]
        left
        omega

/-- C1: the claim says `Rebalance` preserves the materialized content and
yields a balanced rope.  As written it aborts for every rope (the cache
accessor's out-of-range read), and with the cache accessor behaving per its
documented contract, rebalancing `New("a").Concat(New("bc"))` (content
"abc") yields a rope materializing "bca": the merge loop reads
`scratch[bucket]` instead of `scratch[i]` and concatenates the new leaf on
the left of the earlier-seen accumulation, so left-to-right order is lost. -/
theorem c1_rebalance_content_bug :
    (∀ r : Rope, rebalanceP r = none) ∧
    concatR (newR "a") [newR "bc"]
      = ⟨some (conc (Node.leaf "a") (Node.leaf "bc") 0 0)⟩ ∧
    (rebalanceF ⟨some (conc (Node.leaf "a") (Node.leaf "bc") 0 0)⟩).map matR
      = some "bca" ∧
    matR ⟨some (conc (Node.leaf "a") (Node.leaf "bc") 0 0)⟩ = "abc" := by
  refine ⟨rebalanceP_none, ?_, by decide, by decide⟩
  have h1 : newR "a" = ⟨some (Node.leaf "a")⟩ := rfl
  have h2 : newR "bc" = ⟨some (Node.leaf "bc")⟩ := rfl
  rw [h1, h2]
  simp [concatR, concMany]

/-- C2: the claim says `Slice(start, end)` materializes to `s[start:end]`.
On `New("abcdef")`, `Slice(2, 5)` should give "cde"; because `DropPostfix`
calls `dropPrefix` on the root, the source returns the empty string. -/
theorem c2_slice_eval :
    matR (sliceR (newR "abcdef") 2 5) = "" ∧
    matR (newR "abcdef") = "abcdef" := ⟨by decide, by decide⟩

/-- C3: `Concat` materializes to the concatenation of the materializations;
`conc` treats the canonical empty node as a two-sided identity, and otherwise
builds a node with `split = length(lhs)` and depth `1 + max` of the child
depths. -/
theorem c3_concat_spec :
    (∀ a b : Rope, matR (concatR a [b]) = matR a ++ matR b) ∧
    (∀ (rhs : Node) (h1 h2 : Int), conc (Node.leaf "") rhs h1 h2 = rhs) ∧
    (∀ (lhs : Node) (h1 h2 : Int), conc lhs (Node.leaf "") h1 h2 = lhs) ∧
    (∀ lhs rhs : Node, lhs ≠ Node.leaf "" → rhs ≠ Node.leaf "" →
      splitOf (conc lhs rhs 0 0) = some (nlength lhs) ∧
      depthN (conc lhs rhs 0 0) = 1 + max (depthN lhs) (depthN rhs)) :=
  ⟨concatR_pair, conc_left_empty, conc_right_empty,
   fun lhs rhs hl hr => ⟨conc_split lhs rhs hl hr, conc_depth lhs rhs hl hr⟩⟩

theorem c3_concat_spec_witness :
    (Node.leaf "x" ≠ Node.leaf "") ∧ (Node.leaf "y" ≠ Node.leaf "") ∧
    splitOf (conc (Node.leaf "x") (Node.leaf "y") 0 0)
      = some (nlength (Node.leaf "x")) ∧
    depthN (conc (Node.leaf "x") (Node.leaf "y") 0 0)
      = 1 + max (depthN (Node.leaf "x")) (depthN (Node.leaf "y")) := by
  have h := c3_concat_spec.2.2.2 (Node.leaf "x") (Node.leaf "y")
    (by decide) (by decide)
  exact ⟨by decide, by decide, h.1, h.2⟩

/-- C4: the claim says repeated `Read` calls reproduce the content and then
report exactly one EOF.  On the reader test's own rope
`conc(leaf("abc"), leaf("def"))`, reading with a 6-byte buffer yields only
"abc" before EOF (the right subtree is never visited, because `nextNode`
pushes the new stack top instead of the popped node's right subtree), and on
the single-leaf rope `New("abc")` the reader aborts (empty-stack slice) when
the content is exhausted instead of reporting EOF. -/
theorem c4_reader_eval :
    readAllR 6 10 (newReaderR
        ⟨some (conc (Node.leaf "abc") (Node.leaf "def") 0 0)⟩) = some "abc" ∧
    matR ⟨some (conc (Node.leaf "abc") (Node.leaf "def") 0 0)⟩ = "abcdef" ∧
    readAllR 6 10 (newReaderR (newR "abc")) = none :=
  ⟨by decide, by decide, by decide⟩

/-- C5: the claim says no public core operation aborts except the
rebalancer's slot-index check.  In the source, `getFibCache` reads
`fibCache[len(fibCache)]` — one past the end — on every call, so `Rebalance`
(and `isBalanced`) abort for every rope, including `Rope{}`; and `Read` on a
reader over the empty rope hits `r.stack[:len(r.stack)-1]` on an empty
stack. -/
theorem c5_panic_eval :
    (∀ N : Int, getFibCacheP N = none) ∧
    readR 1 3 (newReaderR ⟨none⟩) = ReadRes.abortR ∧
    rebalanceP ⟨none⟩ = none :=
  ⟨getFibCacheP_none, by decide, rebalanceP_none _⟩

/-- C6 counterexample: the claim predicts `isBalanced(New("a")) = true`
(its length 1 is at most `F[0+2] = 3`), but the source aborts in
`getFibCache` instead of returning `true`. -/
theorem c6_isBalanced_counterexample :
    ¬ (isBalancedP (newR "a") = some true ↔
        lenR (newR "a") ≤ fibSeq (depthR (newR "a") + 2)) := by decide

/-- C6 (amended): `isBalanced` returns `true` exactly for a nil root or the
canonical empty node and aborts (out-of-range cache read) on every other
rope; moreover, even with the cache accessor following its documented
contract, `isBalanced(New("a"))` is `false` although the claim's inequality
`length ≤ F[depth+2]` holds there — the source compares
`depth ≤ reverseFib(length) - 2`, not `length ≤ F[depth+2]`. -/
theorem c6_isBalanced_amended :
    (∀ r : Rope, isBalancedP r =
      (if r.node = none ∨ r.node = some (Node.leaf "") then some true
       else none)) ∧
    isBalancedF (newR "a") = some false ∧
    lenR (newR "a") ≤ fibSeq (depthR (newR "a") + 2) :=
  ⟨isBalancedP_char, by decide, by decide⟩

/-- C7: the claim says `DropPostfix(3)` on "abcdef" gives "abc" (and
`DropPrefix(3)` gives "def").  The source's `DropPostfix` calls the node's
`dropPrefix`, so both calls produce "def". -/
theorem c7_drop_eval :
    matR (dropPostfixR (newR "abcdef") 3) = "def" ∧
    matR (dropPrefixR (newR "abcdef") 3) = "def" := ⟨by decide, by decide⟩

/-- C8: combining N single-element leaves with the divide-and-conquer
`concMany` yields a tree of depth at most `ceil(log2 N)`. -/
theorem c8_concMany_depth :
    ∀ (first : Node) (others : List Node),
      oneChar first = true → (∀ x ∈ others, oneChar x = true) →
      depthN (concMany first others) ≤ Nat.clog 2 (others.length + 1) :=
  fun first others hf ho =>
    concMany_depth_aux others.length first others le_rfl hf ho

theorem c8_concMany_depth_witness :
    oneChar (Node.leaf "a") = true ∧
    (∀ x ∈ [Node.leaf "b", Node.leaf "c", Node.leaf "d"], oneChar x = true) ∧
    depthN (concMany (Node.leaf "a") [Node.leaf "b", Node.leaf "c", Node.leaf "d"])
      ≤ Nat.clog 2 4 :=
  ⟨by decide, by decide,
   c8_concMany_depth (Node.leaf "a") [Node.leaf "b", Node.leaf "c", Node.leaf "d"]
     (by decide) (by decide)⟩

/-- C9: `conc` with consistent (non-positive or exact) length hints builds
nodes whose `length()` is exactly the sum of the child lengths; a right
length beyond the `uint32` range is cached as `0` and recomputed, never
truncated; and the node-building operations (`conc`, `dropPrefix`,
`dropPostfix`, `concMany`) preserve the split/length-cache consistency
invariant `WFb`. -/
theorem c9_length_cache :
    (∀ (lhs rhs : Node) (h1 h2 : Int),
      WFb lhs = true → WFb rhs = true →
      (h1 ≤ 0 ∨ h1 = nlength lhs) → (h2 ≤ 0 ∨ h2 = nlength rhs) →
      lhs ≠ Node.leaf "" → rhs ≠ Node.leaf "" →
      nlength (conc lhs rhs h1 h2) = nlength lhs + nlength rhs) ∧
    (∀ (lhs rhs : Node) (h2 : Int),
      WFb rhs = true → (h2 ≤ 0 ∨ h2 = nlength rhs) →
      nlength rhs > 4294967295 →
      lhs ≠ Node.leaf "" → rhs ≠ Node.leaf "" →
      rLenOf (conc lhs rhs 0 h2) = some 0 ∧
      nlength (conc lhs rhs 0 h2) = nlength lhs + nlength rhs) ∧
    (∀ (n : Node) (k : Int), WFb n = true → WFb (dropPrefixN n k) = true) ∧
    (∀ (n : Node) (e : Int), WFb n = true → WFb (dropPostfixN n e) = true) ∧
    (∀ (lhs rhs : Node) (h1 h2 : Int),
      WFb lhs = true → WFb rhs = true →
      (h1 ≤ 0 ∨ h1 = nlength lhs) → (h2 ≤ 0 ∨ h2 = nlength rhs) →
      WFb (conc lhs rhs h1 h2) = true) ∧
    (∀ (first : Node) (others : List Node), WFb first = true →
      (∀ x ∈ others, WFb x = true) → WFb (concMany first others) = true) := by
  refine ⟨?_, ?_, ?_, ?_, ?_, ?_⟩
  · intro lhs rhs h1 h2 hwl hwr hv1 hv2 hl hr
    exact conc_length lhs rhs h1 h2 hwr hv1 hv2
  · intro lhs rhs h2 hwr hv2 hbig hl hr
    exact ⟨conc_overflow lhs rhs h2 hv2 hbig hl hr,
           conc_length lhs rhs 0 h2 hwr (Or.inl le_rfl) hv2⟩
  · intro n k hw
    exact (dropPrefixN_spec n k hw).1
  · intro n e hw
    exact (dropPostfixN_spec n e hw).1
  · intro lhs rhs h1 h2 hwl hwr hv1 hv2
    exact conc_WF lhs rhs h1 h2 hwl hwr hv1 hv2
  · intro first others hf ho
    exact concMany_WF_aux others.length first others le_rfl hf ho

theorem c9_length_cache_witness :
    WFb (Node.leaf "x") = true ∧ WFb (bigT 30) = true ∧
    nlength (bigT 30) > 4294967295 ∧ bigT 30 ≠ Node.leaf "" ∧
    rLenOf (conc (Node.leaf "x") (bigT 30) 0 0) = some 0 ∧
    nlength (conc (Node.leaf "x") (Node.leaf "y") 0 0)
      = nlength (Node.leaf "x") + nlength (Node.leaf "y") ∧
    WFb (dropPrefixN (Node.leaf "xy") 1) = true ∧
    WFb (dropPostfixN (Node.leaf "xy") 1) = true ∧
    WFb (conc (Node.leaf "x") (Node.leaf "y") 0 0) = true ∧
    WFb (concMany (Node.leaf "x") [Node.leaf "y"]) = true := by
  have hb := bigT_facts 30
  have hbig : nlength (bigT 30) > 4294967295 := by
    rw [hb.1]
    norm_num
  have hne : bigT 30 ≠ Node.leaf "" := by
    intro h
    rw [h] at hbig
    simp [nlength] at hbig
  refine ⟨by decide, hb.2, hbig, hne, ?_, ?_, ?_, ?_, ?_, ?_⟩
  · exact (c9_length_cache.2.1 (Node.leaf "x") (bigT 30) 0 hb.2
      (Or.inl le_rfl) hbig (by decide) hne).1
  · exact c9_length_cache.1 (Node.leaf "x") (Node.leaf "y") 0 0
      (by decide) (by decide) (Or.inl le_rfl) (Or.inl le_rfl)
      (by decide) (by decide)
  · exact c9_length_cache.2.2.1 (Node.leaf "xy") 1 (by decide)
  · exact c9_length_cache.2.2.2.1 (Node.leaf "xy") 1 (by decide)
  · exact c9_length_cache.2.2.2.2.1 (Node.leaf "x") (Node.leaf "y") 0 0
      (by decide) (by decide) (Or.inl le_rfl) (Or.inl le_rfl)
  · exact c9_length_cache.2.2.2.2.2 (Node.leaf "x") [Node.leaf "y"]
      (by decide) (by decide)

/-- C10: `binSearch(N, arr)` on a strictly increasing array terminates with
only in-bounds accesses (it returns a value rather than the bounds-panic
result) and yields the least index whose entry is `≥ N` — the array length
when every entry is below `N`, and `0` on the empty array; but
`reverseFib(N)` never returns this index because `getFibCache` aborts (the
initial cache covers `N = 1`, yet `reverseFib(1)` still aborts instead of
returning `0`). -/
theorem c10_binSearch_spec :
    (∀ (N : Int) (arr : List Int), List.Pairwise (· < ·) arr →
      binSearch N arr = some ((lowerIdx N arr : Nat) : Int) ∧
      lowerIdx N arr ≤ arr.length ∧
      (∀ j : Nat, j < lowerIdx N arr → arr.getD j 0 < N) ∧
      (lowerIdx N arr < arr.length → N ≤ arr.getD (lowerIdx N arr) 0)) ∧
    reverseFibP 1 = none := by
  refine ⟨?_, rfl⟩
  intro N arr hs
  exact ⟨binSearch_correct N arr hs, lowerIdx_le_length N arr,
    lowerIdx_lt N arr, lowerIdx_ge N arr⟩

theorem c10_binSearch_spec_witness :
    List.Pairwise (· < ·) ([1, 3, 7] : List Int) ∧
    binSearch 4 [1, 3, 7] = some 2 := by
  have h := (c10_binSearch_spec.1 4 [1, 3, 7] (by decide)).1
  refine ⟨by decide, ?_⟩
  rw [h]
  decide
